import Mathlib

/-!
Verification development for `crypto_routines__2010.py`: a shallow embedding of
the classes `CodeForAlphabet` and `HillCipher`, followed by theorems about the
stated properties of the program.

Modelling conventions:
* Python integers are `ℤ`; Python strings are `List Char`.
* The Sage ring `IntegerModRing(N)` is `ZMod N`; a Sage matrix over it is
  `Matrix (Fin n) (Fin n) (ZMod N)`.  `ZMod 0 = ℤ` matches the fact that
  `IntegerModRing(0)` is `ZZ`, the ring of characteristic 0.
* A raised Python exception is an `Except` error value; each error constructor
  corresponds to one `raise` site of the source.
-/

/-- Errors raised by `CodeForAlphabet.encode` and `CodeForAlphabet.decode`:
`notImplementedWordLength` is the `NotImplementedError` raised when
`__codeword_length != 1`; `unknownSymbol` is the `ValueError` raised by
`str.index` on a character missing from the alphabet; `indexOutOfRange` is the
`IndexError` raised by string subscription with an out-of-range index. -/
inductive CodeErr where
  | notImplementedWordLength : CodeErr
  | unknownSymbol : Char → CodeErr
  | indexOutOfRange : CodeErr
deriving DecidableEq

/-- Model of Python `str.index` restricted to a single character (which is how
`CodeForAlphabet.encode` uses it): the index of the first occurrence of `c` in
the string, `none` when `c` does not occur (the `ValueError` case). -/
def strIndex (c : Char) : List Char → Option ℕ
  | [] => none
  | a :: as => if a = c then some 0 else (strIndex c as).map (· + 1)

/-- The effective index of Python sequence subscription: a negative index
counts from the end (`s[k]` is `s[len(s)+k]`). -/
def pyIndex (len : ℕ) (k : ℤ) : ℤ :=
  if k < 0 then k + len else k

/-- Model of Python string subscription `s[k]` for `k : ℤ`: a negative index
counts from the end of the string, and an index outside the valid range
raises `IndexError`. -/
def pyGet (s : List Char) (k : ℤ) : Except CodeErr Char :=
  if h : 0 ≤ pyIndex s.length k ∧ pyIndex s.length k < (s.length : ℤ) then
    .ok (s.get ⟨(pyIndex s.length k).toNat, by omega⟩)
  else
    .error .indexOutOfRange

/-- Embedding of the class `CodeForAlphabet`: the two attributes stored by
`__init__` (lines 232-233 of the source). -/
structure CodeForAlphabet where
  codeword_length : ℕ
  alphabet_string : List Char
deriving DecidableEq

/-- Embedding of `CodeForAlphabet.__init__`: it only stores its two arguments.
No validation of any kind is performed there (in particular neither the
repeated-character check - left as a `TO DO` in the source - nor any check on
`word_length`), so construction never fails. -/
def CodeForAlphabet.init (alphabet_string : List Char) (word_length : ℕ) :
    CodeForAlphabet :=
  ⟨word_length, alphabet_string⟩

/-- Helper for `CodeForAlphabet.encode`: the loop at lines 253-255 of the
source, which appends `alphabet_string.index(text_str[i])` for each character,
raising `ValueError` at the first character not in the alphabet. -/
def encodeList (alpha : List Char) : List Char → Except CodeErr (List ℤ)
  | [] => .ok []
  | c :: cs =>
    match strIndex c alpha with
    | none => .error (.unknownSymbol c)
    | some i =>
      match encodeList alpha cs with
      | .error e => .error e
      | .ok is => .ok ((i : ℤ) :: is)

/-- Embedding of `CodeForAlphabet.encode` (lines 246-256): raises
`NotImplementedError` when the stored word length is not 1, otherwise maps
each character to its first index in the alphabet string. -/
def CodeForAlphabet.encode (C : CodeForAlphabet) (text_str : List Char) :
    Except CodeErr (List ℤ) :=
  if C.codeword_length ≠ 1 then .error .notImplementedWordLength
  else encodeList C.alphabet_string text_str

/-- Helper for `CodeForAlphabet.decode`: the loop at lines 266-268 of the
source, which appends `alphabet_string[num_list[i]]` for each number, with
Python's integer subscription semantics (`pyGet`). -/
def decodeList (alpha : List Char) : List ℤ → Except CodeErr (List Char)
  | [] => .ok []
  | k :: ks =>
    match pyGet alpha k with
    | .error e => .error e
    | .ok ch =>
      match decodeList alpha ks with
      | .error e => .error e
      | .ok s => .ok (ch :: s)

/-- Embedding of `CodeForAlphabet.decode` (lines 259-269): raises
`NotImplementedError` when the stored word length is not 1, otherwise looks up
the alphabet character at each index. -/
def CodeForAlphabet.decode (C : CodeForAlphabet) (num_list : List ℤ) :
    Except CodeErr (List Char) :=
  if C.codeword_length ≠ 1 then .error .notImplementedWordLength
  else decodeList C.alphabet_string num_list

/-- Decidable equality of `Except` values, used to evaluate the embedded
functions on concrete inputs. -/
instance {ε α : Type} [DecidableEq ε] [DecidableEq α] : DecidableEq (Except ε α) := fun a b =>
  match a, b with
  | .error e, .error f =>
    if h : e = f then .isTrue (by rw [h]) else .isFalse fun hc => h (Except.error.inj hc)
  | .ok x, .ok y =>
    if h : x = y then .isTrue (by rw [h]) else .isFalse fun hc => h (Except.ok.inj hc)
  | .error _, .ok _ => .isFalse fun hc => Except.noConfusion hc
  | .ok _, .error _ => .isFalse fun hc => Except.noConfusion hc

/-- Errors raised by `HillCipher`: `noModulus` is the `TypeError` at line 323
(characteristic-0 base ring, no modulus given); `notInvertible` is the error
raised at line 337 when the matrix inverse cannot be computed;
`paddingRequired` is the `RuntimeError` at line 409 reporting the under-length
word; `invalidBlockSize` is the `ValueError` Python raises for
`range(0, len, 0)` when the block size is 0. -/
inductive HillErr where
  | noModulus : HillErr
  | notInvertible : HillErr
  | paddingRequired : List ℤ → HillErr
  | invalidBlockSize : HillErr
deriving DecidableEq

/-- Embedding of the class `HillCipher`: the three attributes stored by
`__init__` (lines 341-348 of the source).  The block size `n` is the dimension
of the stored square matrices. -/
structure HillCipher (n : ℕ) where
  modulus : ℕ
  encryption_matrix : Matrix (Fin n) (Fin n) (ZMod modulus)
  decryption_matrix : Matrix (Fin n) (Fin n) (ZMod modulus)

/-- Decidable equality of engines, used to evaluate constructions on concrete
inputs. -/
instance {n : ℕ} : DecidableEq (HillCipher n) := fun a b =>
  match a, b with
  | ⟨N1, e1, d1⟩, ⟨N2, e2, d2⟩ =>
    if h : N1 = N2 then by
      subst h
      exact
        if he : e1 = e2 then
          if hd : d1 = d2 then .isTrue (by rw [he, hd])
          else .isFalse fun hc => hd (by injection hc)
        else .isFalse fun hc => he (by injection hc)
    else .isFalse fun hc => h (by injection hc)

/-- Executable multiplicative inverse of a unit of `ZMod N`: for positive `N`
a search over the (finitely many) residues, for `N = 0` (the ring `ℤ`, whose
units `1` and `-1` are their own inverses) the element itself.  When the
argument is a unit this returns its unique multiplicative inverse
(`mul_unitInv`). -/
def unitInv : {N : ℕ} → ZMod N → ZMod N
  | 0, d => d
  | N + 1, d =>
    ((List.range (N + 1)).findSome? fun k : ℕ =>
      if d * (k : ZMod (N + 1)) = 1 then some ((k : ZMod (N + 1))) else none).getD 0

/-- Shared tail of `HillCipher.__init__` (lines 333-348): check that
`mod_matrix` is invertible over `ZMod N`, compute its inverse, and store the
two keys according to `pass_decryption_key`.  A matrix over `ZMod N` is
invertible exactly when its determinant is a unit, i.e. when
`gcd(det.val, N) = 1`; this models the `try: mod_matrix.inverse()` of the
source, whose failure is re-raised as the `notInvertible` error.  The inverse
itself is the adjugate formula `det⁻¹ • adjugate`, which is the unique
two-sided inverse Sage returns. -/
def makeCore {n : ℕ} (N : ℕ) (mod_matrix : Matrix (Fin n) (Fin n) (ZMod N))
    (pass_decryption_key : Bool) : Except HillErr (HillCipher n) :=
  if Nat.gcd (mod_matrix.det).val N = 1 then
    let mod_matrix_inv : Matrix (Fin n) (Fin n) (ZMod N) :=
      unitInv mod_matrix.det • mod_matrix.adjugate
    if pass_decryption_key then .ok ⟨N, mod_matrix_inv, mod_matrix⟩
    else .ok ⟨N, mod_matrix, mod_matrix_inv⟩
  else .error .notInvertible

/-- Embedding of `HillCipher.__init__`, variant A (lines 327-330): a square
matrix over `ℤ` together with an explicit modulus `arg2`.  The matrix is
reduced modulo `arg2` (`base_extend(IntegerModRing(N))`) and handed to the
shared construction tail. -/
def HillCipher.init {n : ℕ} (arg1 : Matrix (Fin n) (Fin n) ℤ) (arg2 : ℕ)
    (pass_decryption_key : Bool) : Except HillErr (HillCipher n) :=
  makeCore arg2 (arg1.map (Int.cast : ℤ → ZMod arg2)) pass_decryption_key

/-- Embedding of `HillCipher.__init__`, variant B (lines 320-325): a square
matrix already over a ring of characteristic `N` (modeled as `ZMod N`, whose
characteristic is `N`, with `ZMod 0 = ℤ` the characteristic-0 case).  When the
characteristic is 0 the `TypeError` at line 323 is raised; otherwise the
matrix is used unreduced with the characteristic as modulus. -/
def HillCipher.initFromRing {n : ℕ} (N : ℕ)
    (arg1 : Matrix (Fin n) (Fin n) (ZMod N)) (pass_decryption_key : Bool) :
    Except HillErr (HillCipher n) :=
  if N = 0 then .error .noModulus
  else makeCore N arg1 pass_decryption_key

/-- Embedding of `HillCipher.block_size` (line 364): the number of rows of the
stored encryption matrix, which is the dimension parameter `n`. -/
def HillCipher.block_size {n : ℕ} (_H : HillCipher n) : ℕ := n

/-- Embedding of `HillCipher.encryption_key` (line 368); the `deepcopy` of the
source is the identity in a pure setting. -/
def HillCipher.encryption_key {n : ℕ} (H : HillCipher n) :
    Matrix (Fin n) (Fin n) (ZMod H.modulus) := H.encryption_matrix

/-- Embedding of `HillCipher.decryption_key` (line 372). -/
def HillCipher.decryption_key {n : ℕ} (H : HillCipher n) :
    Matrix (Fin n) (Fin n) (ZMod H.modulus) := H.decryption_matrix

/-- One iteration of the loop of `__apply_Hill_matrix__` (lines 415-416): view
the length-`n` word as a column vector over `ZMod N`, left-multiply by the key
matrix, and lift every entry back to its canonical representative (`c.lift()`
is `ZMod.val`).  Out-of-range accesses cannot occur because the word has
length `n`; `getD` with default 0 makes the lookup total. -/
def hillBlock {n N : ℕ} (A : Matrix (Fin n) (Fin n) (ZMod N)) (w : List ℤ) :
    List ℤ :=
  List.ofFn fun i =>
    (((A.mulVec fun j => ((w.getD (j : ℕ) 0 : ℤ) : ZMod N)) i).val : ℤ)

/-- The loop of `__apply_Hill_matrix__` (lines 403-417), written as structural
recursion on a fuel argument (each iteration consumes at least one input
element when `n ≥ 1`, so fuel `= input length` suffices; the fuel-exhaustion
case is unreachable under that precondition).  Each iteration takes the next
word of up to `n` elements; a full word is transformed by `hillBlock`; a short
(necessarily final) word is right-padded with the padding value when one was
supplied and otherwise raises the `RuntimeError` of line 409 reporting the
word. -/
def applyHillAux {n N : ℕ} (A : Matrix (Fin n) (Fin n) (ZMod N))
    (pad : Option ℤ) : ℕ → List ℤ → Except HillErr (List ℤ)
  | _, [] => .ok []
  | 0, _ :: _ => .error .invalidBlockSize
  | fuel + 1, x :: rest =>
    let PT_word := (x :: rest).take n
    if PT_word.length = n then
      match applyHillAux A pad fuel ((x :: rest).drop n) with
      | .error e => .error e
      | .ok cs => .ok (hillBlock A PT_word ++ cs)
    else
      match pad with
      | none => .error (.paddingRequired PT_word)
      | some p => .ok (hillBlock A (PT_word ++ List.replicate (n - PT_word.length) p))

/-- Embedding of `HillCipher.__apply_Hill_matrix__` (lines 391-419).  The
guard models the `ValueError` Python raises for `range(0, len, 0)` when the
block size is 0; otherwise the loop runs with sufficient fuel. -/
def HillCipher.applyHillMatrix {n : ℕ} (H : HillCipher n)
    (key_matrix : Matrix (Fin n) (Fin n) (ZMod H.modulus))
    (num_list : List ℤ) (padding_char : Option ℤ) : Except HillErr (List ℤ) :=
  if n = 0 then .error .invalidBlockSize
  else applyHillAux key_matrix padding_char num_list.length num_list

/-- Embedding of `HillCipher.encrypt` (lines 376-380).  The caller may pass a
padding value, but the source forwards the hard-coded keyword argument
`padding_char=""` to `__apply_Hill_matrix__`, so the caller's value is
discarded and no padding ever reaches the loop. -/
def HillCipher.encrypt {n : ℕ} (H : HillCipher n) (padding_char : Option ℤ)
    (plaintext_num_list : List ℤ) : Except HillErr (List ℤ) :=
  H.applyHillMatrix H.encryption_matrix plaintext_num_list none

/-- Embedding of `HillCipher.decrypt` (lines 383-387); like `encrypt` it
forwards the hard-coded `padding_char=""`. -/
def HillCipher.decrypt {n : ℕ} (H : HillCipher n) (padding_char : Option ℤ)
    (ciphertext_num_list : List ℤ) : Except HillErr (List ℤ) :=
  H.applyHillMatrix H.decryption_matrix ciphertext_num_list none

/-- The engine of the worked example of the source (lines 284-300): key matrix
`[[1, 2], [3, 4]]` over modulus 3, reduced to `[[1, 2], [0, 1]]`, with inverse
`[[1, 1], [0, 1]]`. -/
def engA : HillCipher 2 :=
  ⟨3, !![1, 2; 0, 1], !![1, 1; 0, 1]⟩

/-- Sanity anchor reproducing the doctest of lines 284-290: constructing from
`[[1, 2], [3, 4]]` with modulus 3 yields `engA`. -/
lemma engA_init : HillCipher.init !![1, 2; 3, 4] 3 false = .ok engA := by
  decide

/-- Sanity anchor reproducing the doctest of lines 286-288: the ciphertext of
`[0, 0, 0, 1, 1, 1, 2, 2]`. -/
lemma engA_encrypt_doctest :
    engA.encrypt none [0, 0, 0, 1, 1, 1, 2, 2] = .ok [0, 0, 2, 1, 0, 1, 0, 2] := by
  decide

/-! ### Lemmas about the alphabet coder -/

/-- A successful `strIndex` lookup points at an occurrence of the character. -/
lemma strIndex_get {alpha : List Char} {c : Char} {i : ℕ}
    (h : strIndex c alpha = some i) :
    ∃ hlt : i < alpha.length, alpha.get ⟨i, hlt⟩ = c := by
  induction alpha generalizing i with
  | nil => simp [strIndex] at h
  | cons a as ih =>
    rw [strIndex] at h
    by_cases hac : a = c
    · simp only [if_pos hac] at h
      cases h
      exact ⟨by simp, hac⟩
    · simp only [if_neg hac, Option.map_eq_some'] at h
      obtain ⟨j, hj, rfl⟩ := h
      obtain ⟨hlt, hget⟩ := ih hj
      exact ⟨by simpa using Nat.succ_lt_succ hlt, hget⟩

/-- A character of the alphabet has a first index. -/
lemma strIndex_of_mem {alpha : List Char} {c : Char} (h : c ∈ alpha) :
    ∃ i, strIndex c alpha = some i := by
  induction alpha with
  | nil => cases h
  | cons a as ih =>
    by_cases hac : a = c
    · exact ⟨0, by simp [strIndex, hac]⟩
    · obtain ⟨i, hi⟩ := ih (by cases h with
        | head => exact absurd rfl hac
        | tail _ h => exact h)
      exact ⟨i + 1, by simp [strIndex, hac, hi]⟩

/-- Subscription at a valid nonnegative index returns that list element. -/
lemma pyGet_natCast {s : List Char} {i : ℕ} (h : i < s.length) :
    pyGet s (i : ℤ) = .ok (s.get ⟨i, h⟩) := by
  have hidx : pyIndex s.length (i : ℤ) = (i : ℤ) := by
    unfold pyIndex
    split <;> omega
  have hc : 0 ≤ pyIndex s.length (i : ℤ) ∧ pyIndex s.length (i : ℤ) < (s.length : ℤ) := by
    rw [hidx]; omega
  unfold pyGet
  rw [dif_pos hc]
  simp only [hidx, Int.toNat_natCast]

/-- Subscription succeeds on the whole Python-valid range `[-len, len)`. -/
lemma pyGet_ok_of {s : List Char} {k : ℤ} (h1 : -(s.length : ℤ) ≤ k)
    (h2 : k < (s.length : ℤ)) : ∃ c, pyGet s k = .ok c := by
  have hc : 0 ≤ pyIndex s.length k ∧ pyIndex s.length k < (s.length : ℤ) := by
    unfold pyIndex; split <;> omega
  unfold pyGet
  rw [dif_pos hc]
  exact ⟨_, rfl⟩

/-- Subscription raises `IndexError` outside the Python-valid range. -/
lemma pyGet_err_of {s : List Char} {k : ℤ}
    (h : k < -(s.length : ℤ) ∨ (s.length : ℤ) ≤ k) :
    pyGet s k = .error .indexOutOfRange := by
  have hc : ¬(0 ≤ pyIndex s.length k ∧ pyIndex s.length k < (s.length : ℤ)) := by
    unfold pyIndex; split <;> omega
  unfold pyGet
  rw [dif_neg hc]

/-- Encoding a text all of whose characters occur in the alphabet succeeds,
and decoding the result gives the text back. -/
lemma encodeList_decodeList {alpha : List Char} :
    ∀ text : List Char, (∀ c ∈ text, c ∈ alpha) →
      ∃ ns, encodeList alpha text = .ok ns ∧ decodeList alpha ns = .ok text := by
  intro text
  induction text with
  | nil => exact fun _ => ⟨[], rfl, rfl⟩
  | cons c cs ih =>
    intro hmem
    obtain ⟨i, hi⟩ := strIndex_of_mem (hmem c (by simp))
    obtain ⟨hlt, hget⟩ := strIndex_get hi
    obtain ⟨ns, h1, h2⟩ := ih fun d hd => hmem d (by simp [hd])
    refine ⟨(i : ℤ) :: ns, ?_, ?_⟩
    · rw [encodeList, hi, h1]
    · rw [decodeList, pyGet_natCast hlt, h2, hget]

/-- Decoding succeeds when every index is in the Python-valid range. -/
lemma decodeList_ok {alpha : List Char} :
    ∀ ks : List ℤ,
      (∀ k ∈ ks, -(alpha.length : ℤ) ≤ k ∧ k < (alpha.length : ℤ)) →
      ∃ s, decodeList alpha ks = .ok s := by
  intro ks
  induction ks with
  | nil => exact fun _ => ⟨[], rfl⟩
  | cons k ks ih =>
    intro hmem
    obtain ⟨c, hc⟩ := pyGet_ok_of (hmem k (by simp)).1 (hmem k (by simp)).2
    obtain ⟨s, hs⟩ := ih fun j hj => hmem j (by simp [hj])
    exact ⟨c :: s, by rw [decodeList, hc, hs]⟩

/-- Decoding raises `IndexError` as soon as the list contains an index outside
the Python-valid range. -/
lemma decodeList_err {alpha : List Char} :
    ∀ ks : List ℤ,
      (∃ k ∈ ks, k < -(alpha.length : ℤ) ∨ (alpha.length : ℤ) ≤ k) →
      decodeList alpha ks = .error .indexOutOfRange := by
  intro ks
  induction ks with
  | nil => rintro ⟨k, hk, -⟩; cases hk
  | cons k ks ih =>
    rintro ⟨j, hj, hbad⟩
    rcases List.mem_cons.1 hj with rfl | hjtail
    · rw [decodeList, pyGet_err_of hbad]
    · by_cases hk : k < -(alpha.length : ℤ) ∨ (alpha.length : ℤ) ≤ k
      · rw [decodeList, pyGet_err_of hk]
      · obtain ⟨c, hc⟩ := @pyGet_ok_of alpha k (by omega) (by omega)
        rw [decodeList, hc, ih ⟨j, hjtail, hbad⟩]

/-! ### Claims about the alphabet coder -/

/-- C3, counterexample: constructing a coder with `word_length = 2` does not
fail - `__init__` performs no validation and returns the coder - and the
`NotImplementedError` only surfaces at the first `encode` call.  This refutes
the claim that construction itself fails immediately. -/
theorem C3_counterexample :
    CodeForAlphabet.init ['A', 'B'] 2 = ⟨2, ['A', 'B']⟩ ∧
    (CodeForAlphabet.init ['A', 'B'] 2).encode ['A'] = .error .notImplementedWordLength := by
  decide

/-- C3, amended: for every alphabet and every `word_length ≠ 1`, construction
succeeds (storing the arguments unchanged), and every later `encode` or
`decode` call fails with the `NotImplemented` error. -/
theorem C3_amended : ∀ (alpha : List Char) (w : ℕ), w ≠ 1 →
    ∀ (text : List Char) (nums : List ℤ),
    CodeForAlphabet.init alpha w = ⟨w, alpha⟩ ∧
    (CodeForAlphabet.init alpha w).encode text = .error .notImplementedWordLength ∧
    (CodeForAlphabet.init alpha w).decode nums = .error .notImplementedWordLength := by
  intro alpha w hw text nums
  refine ⟨rfl, ?_, ?_⟩ <;>
    simp [CodeForAlphabet.init, CodeForAlphabet.encode, CodeForAlphabet.decode, hw]

/-- Witness for `C3_amended` at word length 2. -/
theorem C3_amended_witness :
    CodeForAlphabet.init ['A'] 2 = ⟨2, ['A']⟩ ∧
    (CodeForAlphabet.init ['A'] 2).encode ['A'] = .error .notImplementedWordLength ∧
    (CodeForAlphabet.init ['A'] 2).decode [0] = .error .notImplementedWordLength :=
  C3_amended ['A'] 2 (by decide) ['A'] [0]

/-- C4, counterexample: decoding `[-1]` over the alphabet `"ABCDE"` does not
fail although `-1` lies outside `[0, 5)`: Python's negative indexing returns
the last character `'E'`.  This refutes the claim that every integer outside
`[0, len(alphabet))` (in particular every negative integer) makes `decode`
fail. -/
theorem C4_counterexample :
    (CodeForAlphabet.init ['A', 'B', 'C', 'D', 'E'] 1).decode [-1] = .ok ['E'] ∧
    ¬(0 ≤ (-1 : ℤ)) := by
  decide

/-- C4, amended: over an alphabet of length `L`, `decode` fails with
`IndexOutOfRange` exactly when some integer lies outside `[-L, L)` - negative
integers in `[-L, 0)` are Python negative indices and succeed - and succeeds
when every integer lies in `[-L, L)`. -/
theorem C4_amended : ∀ (alpha : List Char) (ks : List ℤ),
    ((∃ k ∈ ks, k < -(alpha.length : ℤ) ∨ (alpha.length : ℤ) ≤ k) →
      (CodeForAlphabet.init alpha 1).decode ks = .error .indexOutOfRange) ∧
    ((∀ k ∈ ks, -(alpha.length : ℤ) ≤ k ∧ k < (alpha.length : ℤ)) →
      ∃ s, (CodeForAlphabet.init alpha 1).decode ks = .ok s) := by
  intro alpha ks
  constructor
  · intro h
    simpa [CodeForAlphabet.decode, CodeForAlphabet.init] using @decodeList_err alpha ks h
  · intro h
    obtain ⟨s, hs⟩ := @decodeList_ok alpha ks h
    exact ⟨s, by simpa [CodeForAlphabet.decode, CodeForAlphabet.init] using hs⟩

/-- Witness for `C4_amended`: index 5 over a 2-character alphabet fails. -/
theorem C4_amended_witness :
    (CodeForAlphabet.init ['A', 'B'] 1).decode [5] = .error .indexOutOfRange :=
  (C4_amended ['A', 'B'] [5]).1 (by decide)

/-- C6: over a duplicate-free alphabet, decode is a left inverse of encode on
texts made of alphabet characters; in particular the doctest of lines 221-229
holds: `encode("AAABCEE") = [0,0,0,1,2,4,4]` over `"ABCDE"` and decoding that
list returns `"AAABCEE"`. -/
theorem C6_round_trip :
    (∀ alpha text : List Char, alpha.Nodup → (∀ c ∈ text, c ∈ alpha) →
      ∃ ns, (CodeForAlphabet.init alpha 1).encode text = .ok ns ∧
        (CodeForAlphabet.init alpha 1).decode ns = .ok text) ∧
    (CodeForAlphabet.init ['A', 'B', 'C', 'D', 'E'] 1).encode ['A', 'A', 'A', 'B', 'C', 'E', 'E'] =
      .ok [0, 0, 0, 1, 2, 4, 4] ∧
    (CodeForAlphabet.init ['A', 'B', 'C', 'D', 'E'] 1).decode [0, 0, 0, 1, 2, 4, 4] =
      .ok ['A', 'A', 'A', 'B', 'C', 'E', 'E'] := by
  refine ⟨?_, by decide, by decide⟩
  intro alpha text _hnodup hmem
  obtain ⟨ns, h1, h2⟩ := @encodeList_decodeList alpha text hmem
  exact ⟨ns, by simpa [CodeForAlphabet.encode, CodeForAlphabet.init] using h1,
    by simpa [CodeForAlphabet.decode, CodeForAlphabet.init] using h2⟩

/-- Witness for `C6_round_trip` on a concrete two-character alphabet. -/
theorem C6_round_trip_witness :
    ∃ ns, (CodeForAlphabet.init ['X', 'Y'] 1).encode ['Y', 'X'] = .ok ns ∧
      (CodeForAlphabet.init ['X', 'Y'] 1).decode ns = .ok ['Y', 'X'] :=
  C6_round_trip.1 ['X', 'Y'] ['Y', 'X'] (by decide) (by decide)

/-! ### Lemmas about modular arithmetic and the constructed keys -/

/-- When some list element is mapped to `some`, `findSome?` finds a result. -/
lemma findSome?_of_mem {α β : Type} (f : α → Option β) {l : List α} {a : α}
    (ha : a ∈ l) {b : β} (hb : f a = some b) : ∃ c, l.findSome? f = some c := by
  induction l with
  | nil => cases ha
  | cons x xs ih =>
    rcases hfx : f x with - | c
    · rcases List.mem_cons.1 ha with rfl | hmem
      · rw [hfx] at hb; cases hb
      · obtain ⟨c, hc⟩ := ih hmem
        exact ⟨c, by rw [List.findSome?_cons, hfx, hc]⟩
    · exact ⟨c, by rw [List.findSome?_cons, hfx]⟩

/-- A unit multiplied by its `unitInv` gives 1. -/
lemma mul_unitInv {N : ℕ} (d : ZMod N) (h : IsUnit d) : d * unitInv d = 1 := by
  cases N with
  | zero =>
    rcases Int.isUnit_iff.1 h with h1 | h1 <;> rw [unitInv, h1] <;> decide
  | succ M =>
    obtain ⟨b, hb⟩ := h.exists_right_inv
    rw [unitInv]
    have hmem : b.val ∈ List.range (M + 1) := List.mem_range.2 (ZMod.val_lt b)
    have hfb : (fun k : ℕ =>
        if d * (k : ZMod (M + 1)) = 1 then some ((k : ZMod (M + 1))) else none) b.val
        = some b := by
      show (if d * ((b.val : ℕ) : ZMod (M + 1)) = 1
        then some (((b.val : ℕ) : ZMod (M + 1))) else none) = some b
      rw [ZMod.natCast_rightInverse b, if_pos hb]
    obtain ⟨c, hc⟩ := findSome?_of_mem
      (fun k : ℕ => if d * (k : ZMod (M + 1)) = 1 then some ((k : ZMod (M + 1))) else none)
      hmem hfb
    obtain ⟨a, -, ha⟩ := List.exists_of_findSome?_eq_some hc
    rw [hc]
    by_cases hda : d * (a : ZMod (M + 1)) = 1
    · rw [if_pos hda] at ha
      cases ha
      simpa using hda
    · rw [if_neg hda] at ha
      cases ha

/-- The `unitInv` side of the previous lemma. -/
lemma unitInv_mul {N : ℕ} (d : ZMod N) (h : IsUnit d) : unitInv d * d = 1 := by
  rw [mul_comm]
  exact mul_unitInv d h

/-- The gcd test of `makeCore` is the unit test for the determinant. -/
lemma isUnit_of_gcd {N : ℕ} (hN : 0 < N) (d : ZMod N)
    (h : Nat.gcd d.val N = 1) : IsUnit d := by
  haveI : NeZero N := ⟨hN.ne'⟩
  have := (ZMod.isUnit_iff_coprime d.val N).2 h
  rwa [ZMod.natCast_rightInverse d] at this

/-- A successful construction stores the requested modulus. -/
lemma makeCore_modulus {n N : ℕ} {M : Matrix (Fin n) (Fin n) (ZMod N)}
    {flag : Bool} {H : HillCipher n} (h : makeCore N M flag = .ok H) :
    H.modulus = N := by
  unfold makeCore at h
  by_cases hg : Nat.gcd M.det.val N = 1
  · rw [if_pos hg] at h
    cases flag
    · rw [if_neg (by simp)] at h
      cases h
      rfl
    · rw [if_pos rfl] at h
      cases h
      rfl
  · rw [if_neg hg] at h
    cases h

/-- A successful construction fails the gcd test never: the stored keys are
two-sided inverses of each other. -/
lemma makeCore_keys {n N : ℕ} (hN : 0 < N) {M : Matrix (Fin n) (Fin n) (ZMod N)}
    {flag : Bool} {H : HillCipher n} (h : makeCore N M flag = .ok H) :
    H.encryption_matrix * H.decryption_matrix = 1 ∧
    H.decryption_matrix * H.encryption_matrix = 1 := by
  unfold makeCore at h
  by_cases hg : Nat.gcd M.det.val N = 1
  · have hu : IsUnit M.det := isUnit_of_gcd hN M.det hg
    have h1 : M * (unitInv M.det • M.adjugate) = 1 := by
      rw [mul_smul_comm, Matrix.mul_adjugate, smul_smul,
        mul_comm (unitInv M.det) M.det, mul_unitInv M.det hu, one_smul]
    have h2 : (unitInv M.det • M.adjugate) * M = 1 := by
      rw [smul_mul_assoc, Matrix.adjugate_mul, smul_smul,
        mul_comm (unitInv M.det) M.det, mul_unitInv M.det hu, one_smul]
    rw [if_pos hg] at h
    cases flag
    · rw [if_neg (by simp)] at h
      cases h
      exact ⟨h1, h2⟩
    · rw [if_pos rfl] at h
      cases h
      exact ⟨h2, h1⟩
  · rw [if_neg hg] at h
    cases h

/-- A failed gcd test raises the `notInvertible` error. -/
lemma makeCore_err {n N : ℕ} (M : Matrix (Fin n) (Fin n) (ZMod N)) (flag : Bool)
    (h : Nat.gcd M.det.val N ≠ 1) :
    makeCore N M flag = .error .notInvertible := by
  unfold makeCore
  rw [if_neg h]

/-- The gcd of the canonical lift of `z mod N` with `N` is the gcd of `z` with
`N`: reduction modulo `N` does not change the gcd. -/
lemma gcd_val_intCast {N : ℕ} (hN : 0 < N) (z : ℤ) :
    Nat.gcd ((z : ZMod N)).val N = Int.gcd z N := by
  haveI : NeZero N := ⟨hN.ne'⟩
  have hval : ((((z : ZMod N)).val : ℤ)) = z % N := ZMod.val_intCast z
  apply Nat.dvd_antisymm
  · have hv : ((Nat.gcd ((z : ZMod N)).val N : ℕ) : ℤ) ∣ z := by
      have hdvd_v : ((Nat.gcd ((z : ZMod N)).val N : ℕ) : ℤ) ∣ ((((z : ZMod N)).val : ℕ) : ℤ) :=
        Int.natCast_dvd_natCast.2 (Nat.gcd_dvd_left _ _)
      have hdvd_N : ((Nat.gcd ((z : ZMod N)).val N : ℕ) : ℤ) ∣ (N : ℤ) :=
        Int.natCast_dvd_natCast.2 (Nat.gcd_dvd_right _ _)
      rw [hval] at hdvd_v
      have := dvd_add hdvd_v (hdvd_N.mul_right (z / N))
      rwa [Int.emod_add_ediv z N] at this
    have hn : ((Nat.gcd ((z : ZMod N)).val N : ℕ) : ℤ) ∣ (N : ℤ) :=
      Int.natCast_dvd_natCast.2 (Nat.gcd_dvd_right _ _)
    exact Int.natCast_dvd_natCast.1 (Int.dvd_gcd hv hn)
  · apply Nat.dvd_gcd
    · have hv : ((Int.gcd z N : ℕ) : ℤ) ∣ ((((z : ZMod N)).val : ℕ) : ℤ) := by
        rw [hval, Int.emod_def]
        exact dvd_sub Int.gcd_dvd_left (Int.gcd_dvd_right.mul_right _)
      exact Int.natCast_dvd_natCast.1 hv
    · exact Int.natCast_dvd_natCast.1 Int.gcd_dvd_right

/-! ### Lemmas about the block transform -/

/-- A transformed block has length `n`. -/
lemma hillBlock_length {n N : ℕ} (A : Matrix (Fin n) (Fin n) (ZMod N))
    (w : List ℤ) : (hillBlock A w).length = n := by
  simp [hillBlock]

/-- Every entry of a transformed block is a canonical representative. -/
lemma hillBlock_mem {n N : ℕ} [NeZero N] {A : Matrix (Fin n) (Fin n) (ZMod N)}
    {w : List ℤ} {y : ℤ} (hy : y ∈ hillBlock A w) : 0 ≤ y ∧ y < (N : ℤ) := by
  rw [hillBlock, List.mem_ofFn] at hy
  obtain ⟨i, rfl⟩ := hy
  dsimp only
  exact ⟨Int.natCast_nonneg _, by exact_mod_cast ZMod.val_lt _⟩

/-- Lifting after reduction is the identity on canonical representatives. -/
lemma val_intCast_of_range {N : ℕ} [NeZero N] {z : ℤ} (h0 : 0 ≤ z)
    (hN : z < (N : ℤ)) : ((((z : ZMod N)).val : ℕ) : ℤ) = z := by
  rw [ZMod.val_intCast, Int.emod_eq_of_lt h0 hN]

/-- Reducing after lifting is the identity on residues. -/
lemma intCast_val_cast {N : ℕ} [NeZero N] (a : ZMod N) :
    ((((a.val : ℕ) : ℤ)) : ZMod N) = a := by
  rw [Int.cast_natCast]
  exact ZMod.natCast_rightInverse a

/-- Applying the block transform for `A'` to a block transformed by `A`
recovers the block, provided `A' * A = 1`, the block has length `n` and its
entries are canonical representatives. -/
lemma hillBlock_round {n N : ℕ} [NeZero N] {A A' : Matrix (Fin n) (Fin n) (ZMod N)}
    (hAA : A' * A = 1) {w : List ℤ} (hw : w.length = n)
    (hr : ∀ x ∈ w, 0 ≤ x ∧ x < (N : ℤ)) :
    hillBlock A' (hillBlock A w) = w := by
  have hstep : (fun j : Fin n => (((hillBlock A w).getD (j : ℕ) 0 : ℤ) : ZMod N)) =
      A.mulVec fun j : Fin n => ((w.getD (j : ℕ) 0 : ℤ) : ZMod N) := by
    funext j
    have hlen : (j : ℕ) < (hillBlock A w).length := by
      rw [hillBlock_length]; exact j.2
    rw [List.getD_eq_getElem _ _ hlen]
    simp only [hillBlock, List.getElem_ofFn]
    rw [intCast_val_cast]
  rw [show hillBlock A' (hillBlock A w) = List.ofFn fun i =>
      (((A'.mulVec fun j : Fin n =>
        (((hillBlock A w).getD (j : ℕ) 0 : ℤ) : ZMod N)) i).val : ℤ) from rfl]
  rw [hstep, Matrix.mulVec_mulVec, hAA, Matrix.one_mulVec]
  apply List.ext_getElem (by simp [hw])
  intro i h1 h2
  simp only [List.getElem_ofFn]
  have hmem : w[i] ∈ w := List.getElem_mem h2
  rw [List.getD_eq_getElem _ _ h2]
  exact val_intCast_of_range (hr _ hmem).1 (hr _ hmem).2

/-- The loop on an empty input returns the empty list for any fuel. -/
lemma applyHillAux_nil {n N : ℕ} (A : Matrix (Fin n) (Fin n) (ZMod N))
    (pad : Option ℤ) (fuel : ℕ) : applyHillAux A pad fuel [] = .ok [] := by
  cases fuel <;> rfl

/-- Unfolding the loop on a full leading word. -/
lemma applyHillAux_full {n N : ℕ} (A : Matrix (Fin n) (Fin n) (ZMod N))
    (pad : Option ℤ) {fuel : ℕ} {xs : List ℤ} (hx : xs ≠ []) (hf : fuel ≠ 0)
    (htake : (xs.take n).length = n) :
    applyHillAux A pad fuel xs =
      match applyHillAux A pad (fuel - 1) (xs.drop n) with
      | .error e => .error e
      | .ok cs => .ok (hillBlock A (xs.take n) ++ cs) := by
  cases xs with
  | nil => cases hx rfl
  | cons x rest =>
    cases fuel with
    | zero => cases hf rfl
    | succ f =>
      simp only [applyHillAux, Nat.succ_sub_one]
      rw [if_pos htake]

/-- Unfolding the loop on a short (final) word. -/
lemma applyHillAux_short {n N : ℕ} (A : Matrix (Fin n) (Fin n) (ZMod N))
    (pad : Option ℤ) {fuel : ℕ} {xs : List ℤ} (hx : xs ≠ []) (hf : fuel ≠ 0)
    (htake : (xs.take n).length ≠ n) :
    applyHillAux A pad fuel xs =
      match pad with
      | none => .error (.paddingRequired (xs.take n))
      | some p =>
        .ok (hillBlock A (xs.take n ++ List.replicate (n - (xs.take n).length) p)) := by
  cases xs with
  | nil => cases hx rfl
  | cons x rest =>
    cases fuel with
    | zero => cases hf rfl
    | succ f =>
      simp only [applyHillAux]
      rw [if_neg htake]

/-- The loop result does not depend on the fuel, as long as the fuel is at
least the input length (each iteration consumes at least one element when
`n ≥ 1`). -/
lemma applyHillAux_fuel_eq {n N : ℕ} (hn : 0 < n)
    (A : Matrix (Fin n) (Fin n) (ZMod N)) (pad : Option ℤ) :
    ∀ f1 (xs : List ℤ) f2, xs.length ≤ f1 → xs.length ≤ f2 →
      applyHillAux A pad f1 xs = applyHillAux A pad f2 xs := by
  intro f1
  induction f1 with
  | zero =>
    intro xs f2 h1 h2
    have hxs : xs = [] := List.length_eq_zero.1 (Nat.le_zero.1 h1)
    subst hxs
    rw [applyHillAux_nil, applyHillAux_nil]
  | succ f ih =>
    intro xs f2 h1 h2
    cases xs with
    | nil => rw [applyHillAux_nil, applyHillAux_nil]
    | cons x rest =>
      have hx : x :: rest ≠ [] := by simp
      have hlen : (x :: rest).length = rest.length + 1 := by simp
      have hf2 : f2 ≠ 0 := by omega
      by_cases htake : (((x :: rest).take n).length) = n
      · rw [applyHillAux_full A pad hx (Nat.succ_ne_zero f) htake,
          applyHillAux_full A pad hx hf2 htake]
        have hdrop : ((x :: rest).drop n).length = (x :: rest).length - n :=
          List.length_drop n (x :: rest)
        have := ih ((x :: rest).drop n) (f2 - 1) (by omega) (by omega)
        rw [Nat.succ_sub_one, this]
      · rw [applyHillAux_short A pad hx (Nat.succ_ne_zero f) htake,
          applyHillAux_short A pad hx hf2 htake]

/-- On an input whose length is a multiple of `n`, the loop succeeds and
returns an output of the same length. -/
lemma applyHillAux_ok_of_dvd {n N : ℕ} (hn : 0 < n)
    (A : Matrix (Fin n) (Fin n) (ZMod N)) (pad : Option ℤ) :
    ∀ fuel (xs : List ℤ), xs.length ≤ fuel → n ∣ xs.length →
      ∃ ys, applyHillAux A pad fuel xs = .ok ys ∧ ys.length = xs.length := by
  intro fuel
  induction fuel with
  | zero =>
    intro xs h1 _h2
    have hxs : xs = [] := List.length_eq_zero.1 (Nat.le_zero.1 h1)
    subst hxs
    exact ⟨[], applyHillAux_nil A pad 0, rfl⟩
  | succ f ih =>
    intro xs h1 h2
    cases xs with
    | nil => exact ⟨[], applyHillAux_nil A pad _, rfl⟩
    | cons x rest =>
      have hx : x :: rest ≠ [] := by simp
      have hlen : n ≤ (x :: rest).length := Nat.le_of_dvd (by simp) h2
      have htake : ((x :: rest).take n).length = n := by
        rw [List.length_take]; omega
      have hdrop : ((x :: rest).drop n).length = (x :: rest).length - n :=
        List.length_drop n (x :: rest)
      obtain ⟨ys, hys, hlys⟩ := ih ((x :: rest).drop n) (by omega)
        (by rw [hdrop]; exact Nat.dvd_sub' h2 dvd_rfl)
      refine ⟨hillBlock A ((x :: rest).take n) ++ ys, ?_, ?_⟩
      · rw [applyHillAux_full A pad hx (Nat.succ_ne_zero f) htake,
          Nat.succ_sub_one, hys]
      · rw [List.length_append, hillBlock_length, hlys, hdrop]; omega

/-- Every entry of a successful loop output is a canonical representative. -/
lemma applyHillAux_mem {n N : ℕ} [NeZero N] {A : Matrix (Fin n) (Fin n) (ZMod N)}
    {pad : Option ℤ} :
    ∀ fuel (xs ys : List ℤ), applyHillAux A pad fuel xs = .ok ys →
      ∀ y ∈ ys, 0 ≤ y ∧ y < (N : ℤ) := by
  intro fuel
  induction fuel with
  | zero =>
    intro xs ys h y hy
    cases xs with
    | nil =>
      rw [applyHillAux_nil] at h
      cases h
      cases hy
    | cons x rest => cases h
  | succ f ih =>
    intro xs ys h y hy
    cases xs with
    | nil =>
      rw [applyHillAux_nil] at h
      cases h
      cases hy
    | cons x rest =>
      have hx : x :: rest ≠ [] := by simp
      by_cases htake : (((x :: rest).take n).length) = n
      · rw [applyHillAux_full A pad hx (Nat.succ_ne_zero f) htake,
          Nat.succ_sub_one] at h
        rcases hcs : applyHillAux A pad f ((x :: rest).drop n) with e | cs
        · rw [hcs] at h; cases h
        · rw [hcs] at h
          cases h
          rcases List.mem_append.1 hy with h1 | h1
          · exact hillBlock_mem h1
          · exact ih _ _ hcs y h1
      · rw [applyHillAux_short A pad hx (Nat.succ_ne_zero f) htake] at h
        cases pad with
        | none => cases h
        | some p =>
          cases h
          exact hillBlock_mem hy

/-- Round trip of the loop: on an input whose length is a multiple of `n` and
whose entries are canonical representatives, running the loop with `A` and
then with `A'` (where `A' * A = 1`) recovers the input. -/
lemma applyHillAux_round {n N : ℕ} [NeZero N] (hn : 0 < n)
    {A A' : Matrix (Fin n) (Fin n) (ZMod N)} (hAA : A' * A = 1)
    (pad pad' : Option ℤ) :
    ∀ fuel (xs : List ℤ), xs.length ≤ fuel → n ∣ xs.length →
      (∀ x ∈ xs, 0 ≤ x ∧ x < (N : ℤ)) →
      ∃ ys, applyHillAux A pad fuel xs = .ok ys ∧ ys.length = xs.length ∧
        applyHillAux A' pad' ys.length ys = .ok xs := by
  intro fuel
  induction fuel with
  | zero =>
    intro xs h1 _h2 _h3
    have hxs : xs = [] := List.length_eq_zero.1 (Nat.le_zero.1 h1)
    subst hxs
    exact ⟨[], applyHillAux_nil A pad 0, rfl, applyHillAux_nil A' pad' 0⟩
  | succ f ih =>
    intro xs h1 h2 h3
    cases xs with
    | nil => exact ⟨[], applyHillAux_nil A pad _, rfl, applyHillAux_nil A' pad' 0⟩
    | cons x rest =>
      have hx : x :: rest ≠ [] := by simp
      have hlen : n ≤ (x :: rest).length := Nat.le_of_dvd (by simp) h2
      have htake : ((x :: rest).take n).length = n := by
        rw [List.length_take]; omega
      have hdrop : ((x :: rest).drop n).length = (x :: rest).length - n :=
        List.length_drop n (x :: rest)
      obtain ⟨cs, hcs, hclen, hback⟩ := ih ((x :: rest).drop n) (by omega)
        (by rw [hdrop]; exact Nat.dvd_sub' h2 dvd_rfl)
        (fun z hz => h3 z (List.mem_of_mem_drop hz))
      have hblen : (hillBlock A ((x :: rest).take n)).length = n :=
        hillBlock_length A _
      refine ⟨hillBlock A ((x :: rest).take n) ++ cs, ?_, ?_, ?_⟩
      · rw [applyHillAux_full A pad hx (Nat.succ_ne_zero f) htake,
          Nat.succ_sub_one, hcs]
      · rw [List.length_append, hblen, hclen, hdrop]; omega
      · have hylen : (hillBlock A ((x :: rest).take n) ++ cs).length =
            n + cs.length := by
          rw [List.length_append, hblen]
        have hyne : hillBlock A ((x :: rest).take n) ++ cs ≠ [] := by
          intro hnil
          have := congrArg List.length hnil
          rw [hylen] at this
          simp at this
          omega
        have htk : (hillBlock A ((x :: rest).take n) ++ cs).take n =
            hillBlock A ((x :: rest).take n) := List.take_left' hblen
        have hdp : (hillBlock A ((x :: rest).take n) ++ cs).drop n = cs :=
          List.drop_left' hblen
        rw [applyHillAux_full A' pad' hyne (by rw [hylen]; omega)
          (by rw [htk, hblen])]
        rw [hdp]
        have hfuel2 : applyHillAux A' pad'
            ((hillBlock A ((x :: rest).take n) ++ cs).length - 1) cs =
            applyHillAux A' pad' cs.length cs := by
          apply applyHillAux_fuel_eq hn A' pad'
          · rw [hylen]; omega
          · exact le_refl _
        rw [hfuel2, hback, htk]
        have hround : hillBlock A' (hillBlock A ((x :: rest).take n)) =
            (x :: rest).take n :=
          hillBlock_round hAA htake
            (fun z hz => h3 z (List.take_subset n (x :: rest) hz))
        show Except.ok (hillBlock A' (hillBlock A ((x :: rest).take n)) ++
          (x :: rest).drop n) = Except.ok (x :: rest)
        rw [hround, List.take_append_drop]

/-- The public `__apply_Hill_matrix__` method with a positive block size runs
the loop with fuel equal to the input length. -/
lemma applyHillMatrix_eq {n : ℕ} (hn : 0 < n) (H : HillCipher n)
    (key : Matrix (Fin n) (Fin n) (ZMod H.modulus)) (xs : List ℤ)
    (pad : Option ℤ) :
    H.applyHillMatrix key xs pad = applyHillAux key pad xs.length xs := by
  unfold HillCipher.applyHillMatrix
  rw [if_neg (Nat.pos_iff_ne_zero.1 hn)]

/-! ### Claims about the Hill cipher -/

/-- C1, counterexample: over the engine of the worked example (modulus 3,
block size 2, invertible key), the sequence `[3, 3]` - whose length is a
multiple of the block size - does not round-trip: every output entry is
reduced to its canonical representative, so `decrypt(encrypt([3, 3]))`
returns `[0, 0] ≠ [3, 3]`. -/
theorem C1_counterexample :
    HillCipher.init !![1, 2; 3, 4] 3 false = .ok engA ∧
    (engA.encrypt none [3, 3]).bind (engA.decrypt none) = .ok [0, 0] ∧
    [(0 : ℤ), 0] ≠ [3, 3] := by
  decide

/-- C1, amended: for every engine successfully constructed from an integer
matrix and a modulus `N ≥ 2` (either flag value), with positive block size
`n`, and every integer sequence whose length is a multiple of `n` and whose
entries are canonical representatives in `[0, N)`,
`decrypt(encrypt(x)) = x`. -/
theorem C1_amended {n : ℕ} (M : Matrix (Fin n) (Fin n) ℤ) (N : ℕ) (flag : Bool)
    (H : HillCipher n) (hN : 2 ≤ N) (hn : 0 < n)
    (hinit : HillCipher.init M N flag = .ok H) :
    ∀ xs : List ℤ, n ∣ xs.length → (∀ x ∈ xs, 0 ≤ x ∧ x < (N : ℤ)) →
      ∃ ys, H.encrypt none xs = .ok ys ∧ H.decrypt none ys = .ok xs := by
  intro xs hdvd hrange
  unfold HillCipher.init at hinit
  have hmod : H.modulus = N := makeCore_modulus hinit
  obtain ⟨h1, h2⟩ := makeCore_keys (show 0 < N by omega) hinit
  subst hmod
  haveI : NeZero H.modulus := ⟨by omega⟩
  obtain ⟨ys, hys, hlen, hback⟩ :=
    applyHillAux_round hn h2 none none xs.length xs (le_refl _) hdvd hrange
  refine ⟨ys, ?_, ?_⟩
  · unfold HillCipher.encrypt
    rw [applyHillMatrix_eq hn]
    exact hys
  · unfold HillCipher.decrypt
    rw [applyHillMatrix_eq hn]
    exact hback

/-- Witness for `C1_amended` at the worked-example engine. -/
theorem C1_amended_witness :
    ∃ ys, engA.encrypt none [0, 1] = .ok ys ∧ engA.decrypt none ys = .ok [0, 1] :=
  C1_amended !![1, 2; 3, 4] 3 false engA (by decide) (by decide) engA_init
    [0, 1] (by decide) (by decide)

/-- C2: the `encrypt` and `decrypt` wrappers pass the hard-coded keyword
argument `padding_char=""` to `__apply_Hill_matrix__` (lines 380 and 387),
discarding the padding value supplied by the caller, so a call on an input
whose length is not a multiple of the block size raises the padding
`RuntimeError` even when a padding value was supplied. -/
theorem C2_padding_discarded :
    HillCipher.init !![1, 2; 3, 4] 3 false = .ok engA ∧
    engA.encrypt (some 0) [0] = .error (.paddingRequired [0]) ∧
    engA.decrypt (some 0) [0] = .error (.paddingRequired [0]) := by
  decide

/-- C5: for every successfully constructed engine (both branches of
`__init__` store the keys through the shared tail `makeCore`, and both values
of `pass_decryption_key` are covered), the product of the stored encryption
and decryption keys is the identity matrix.  Engines are immutable values, so
the invariant holds at all times after construction. -/
theorem C5_keys {n N : ℕ} (Mmod : Matrix (Fin n) (Fin n) (ZMod N)) (flag : Bool)
    (H : HillCipher n) (hN : 2 ≤ N) (h : makeCore N Mmod flag = .ok H) :
    H.encryption_key * H.decryption_key = 1 := by
  unfold HillCipher.encryption_key HillCipher.decryption_key
  exact (makeCore_keys (show 0 < N by omega) h).1

/-- Witness for `C5_keys` at the worked-example engine. -/
theorem C5_keys_witness : engA.encryption_key * engA.decryption_key = 1 :=
  C5_keys engA.encryption_matrix false engA (by decide) (by decide)

/-- C7: constructing an engine from an integer matrix whose determinant is
not a unit modulo `N` (`gcd(det, N) ≠ 1`) fails with the `notInvertible`
error, for every modulus `N ≥ 2` and either flag value. -/
theorem C7_notInvertible {n : ℕ} (M : Matrix (Fin n) (Fin n) ℤ) (N : ℕ)
    (flag : Bool) (hN : 2 ≤ N) (hgcd : Int.gcd M.det N ≠ 1) :
    HillCipher.init M N flag = .error .notInvertible := by
  unfold HillCipher.init
  apply makeCore_err
  have hdet : (M.map (Int.cast : ℤ → ZMod N)).det = ((M.det : ℤ) : ZMod N) :=
    (RingHom.map_det (Int.castRingHom (ZMod N)) M).symm
  rw [hdet, gcd_val_intCast (show 0 < N by omega) M.det]
  exact hgcd

/-- Witness for `C7_notInvertible`: the all-zero 2×2 matrix modulo 5. -/
theorem C7_notInvertible_witness :
    HillCipher.init !![0, 0; 0, 0] 5 false = .error .notInvertible :=
  C7_notInvertible !![0, 0; 0, 0] 5 false (by decide) (by decide)

/-- C8: constructing from a matrix alone over a ring of characteristic 0
(`ZMod 0 = ℤ`) fails with the `noModulus` error; over a ring of positive
characteristic `N` the construction behaves exactly as variant A (matrix plus
explicit modulus) with modulus `N`, and a successful construction stores
modulus `N`. -/
theorem C8_characteristic {n : ℕ} (flag : Bool) :
    (∀ M : Matrix (Fin n) (Fin n) (ZMod 0),
      HillCipher.initFromRing 0 M flag = .error .noModulus) ∧
    (∀ (N : ℕ) (M : Matrix (Fin n) (Fin n) (ZMod N)), 0 < N →
      HillCipher.initFromRing N M flag =
        HillCipher.init (M.map fun a => ((a.val : ℕ) : ℤ)) N flag ∧
      ∀ H, HillCipher.initFromRing N M flag = .ok H → H.modulus = N) := by
  constructor
  · intro M
    rfl
  · intro N M hN
    haveI : NeZero N := ⟨hN.ne'⟩
    have hmap : (M.map fun a : ZMod N => ((a.val : ℕ) : ℤ)).map
        (Int.cast : ℤ → ZMod N) = M := by
      ext i j
      simp only [Matrix.map_apply]
      exact intCast_val_cast (M i j)
    constructor
    · unfold HillCipher.initFromRing HillCipher.init
      rw [if_neg hN.ne', hmap]
    · intro H h
      unfold HillCipher.initFromRing at h
      rw [if_neg hN.ne'] at h
      exact makeCore_modulus h

/-- Witness for `C8_characteristic`: a 1×1 matrix in characteristic 0 and in
characteristic 2. -/
theorem C8_characteristic_witness :
    HillCipher.initFromRing 0 !![(5 : ZMod 0)] false = .error .noModulus ∧
    HillCipher.initFromRing 2 !![(1 : ZMod 2)] false =
      HillCipher.init (!![(1 : ZMod 2)].map fun a => ((a.val : ℕ) : ℤ)) 2 false :=
  ⟨(C8_characteristic false).1 !![(5 : ZMod 0)],
    ((C8_characteristic false).2 2 !![(1 : ZMod 2)] (by decide)).1⟩

/-- C9: every entry of a successful `encrypt` or `decrypt` output is the
canonical representative of its residue, i.e. lies in `[0, N)`; and the empty
input yields the empty output with no error.  The hypotheses `0 < n` and
`0 < modulus` are the block-size and modulus constraints of the data model. -/
theorem C9_range {n : ℕ} (H : HillCipher n) (pad : Option ℤ) (hn : 0 < n)
    (hN : 0 < H.modulus) :
    (∀ xs ys : List ℤ,
      (H.encrypt pad xs = .ok ys ∨ H.decrypt pad xs = .ok ys) →
      ∀ y ∈ ys, 0 ≤ y ∧ y < (H.modulus : ℤ)) ∧
    H.encrypt pad [] = .ok [] ∧ H.decrypt pad [] = .ok [] := by
  haveI : NeZero H.modulus := ⟨hN.ne'⟩
  refine ⟨?_, ?_, ?_⟩
  · intro xs ys h
    rcases h with h | h
    · unfold HillCipher.encrypt at h
      rw [applyHillMatrix_eq hn] at h
      exact applyHillAux_mem _ _ _ h
    · unfold HillCipher.decrypt at h
      rw [applyHillMatrix_eq hn] at h
      exact applyHillAux_mem _ _ _ h
  · unfold HillCipher.encrypt
    rw [applyHillMatrix_eq hn]
    exact applyHillAux_nil _ _ _
  · unfold HillCipher.decrypt
    rw [applyHillMatrix_eq hn]
    exact applyHillAux_nil _ _ _

/-- Witness for `C9_range`: the empty-input clause at the worked-example
engine. -/
theorem C9_range_witness :
    engA.encrypt none [] = .ok [] ∧ engA.decrypt none [] = .ok [] :=
  ⟨(C9_range engA none (by decide) (by decide)).2.1,
    (C9_range engA none (by decide) (by decide)).2.2⟩

/-- C10: on an input whose length is a multiple of the block size, `encrypt`
and `decrypt` succeed and return an output of exactly the input's length. -/
theorem C10_length {n : ℕ} (H : HillCipher n) (pad : Option ℤ) (xs : List ℤ)
    (hn : 0 < n) (hdvd : n ∣ xs.length) :
    ∃ ys zs, H.encrypt pad xs = .ok ys ∧ ys.length = xs.length ∧
      H.decrypt pad xs = .ok zs ∧ zs.length = xs.length := by
  obtain ⟨ys, hys, hlys⟩ := applyHillAux_ok_of_dvd hn H.encryption_matrix none
    xs.length xs (le_refl _) hdvd
  obtain ⟨zs, hzs, hlzs⟩ := applyHillAux_ok_of_dvd hn H.decryption_matrix none
    xs.length xs (le_refl _) hdvd
  refine ⟨ys, zs, ?_, hlys, ?_, hlzs⟩
  · unfold HillCipher.encrypt
    rw [applyHillMatrix_eq hn]
    exact hys
  · unfold HillCipher.decrypt
    rw [applyHillMatrix_eq hn]
    exact hzs

/-- Witness for `C10_length` on a length-4 input at the worked-example
engine. -/
theorem C10_length_witness :
    ∃ ys zs, engA.encrypt none [1, 2, 0, 1] = .ok ys ∧
      ys.length = ([1, 2, 0, 1] : List ℤ).length ∧
      engA.decrypt none [1, 2, 0, 1] = .ok zs ∧
      zs.length = ([1, 2, 0, 1] : List ℤ).length :=
  C10_length engA none [1, 2, 0, 1] (by decide) (by decide)
